import Mathlib

/-!
Shallow embedding of the three command-line tools of the repository
(compute_statistics.py, convert_numbers.py, word_count.py).

Numbers parsed from input lines are Python floats; the programs reject NaN
and the infinities, so every value the core logic touches is a finite real.
The embedding models these values as rationals (every finite double is a
rational and the claims under verification are about the algorithms, not
about floating-point rounding).  Python dynamically switches between int
and float; the embedding makes that explicit with the PyNum type.
-/

/-- Python numeric result values: either an int or a (finite) float. -/
inductive PyNum where
  | int (n : ℤ)
  | float (q : ℚ)
deriving DecidableEq

/-- Numeric value carried by a PyNum. -/
def PyNum.toRat : PyNum → ℚ
  | .int n => (n : ℚ)
  | .float q => q

/-- Canonicalization used throughout the source: a float that
is mathematically whole (Python float.is_integer) is converted with int(),
otherwise it is kept as a float.  A rational is whole exactly when its
reduced denominator is 1. -/
def canon (q : ℚ) : PyNum := if q.den = 1 then .int q.num else .float q

/-! ## compute_statistics.py : the statistics engine -/

/-- get_mean from compute_statistics.py: sum(numbers) / len(numbers),
returned as int when whole (mean.is_integer()). -/
def get_mean (numbers : List ℚ) : PyNum :=
  canon (numbers.sum / (numbers.length : ℚ))

/-- get_median from compute_statistics.py: sort ascending, middle element
for odd length, average of the two middle elements for even length,
then the is_integer canonicalization.  Python sorted() is an ascending
stable sort; on rational values the sorted permutation is unique, and
insertionSort is its executable embodiment.  List.getD models the list
indexing (the indices are in range whenever the list is non-empty, which
main guarantees before calling). -/
def get_median (numbers : List ℚ) : PyNum :=
  let sorted_numbers := List.insertionSort (· ≤ ·) numbers
  let numbers_len := numbers.length
  if numbers_len % 2 = 0 then
    let mid1 := sorted_numbers.getD (numbers_len / 2 - 1) 0
    let mid2 := sorted_numbers.getD (numbers_len / 2) 0
    canon ((mid1 + mid2) / 2)
  else
    canon (sorted_numbers.getD (numbers_len / 2) 0)

/-- One step of building a Python dict used as a counter:
frequency[x] = frequency.get(x, 0) + 1.  The dict is modelled as an
association list in key-insertion order (Python dicts preserve insertion
order). -/
def insertIncr {α} [DecidableEq α] (m : List (α × ℕ)) (x : α) : List (α × ℕ) :=
  if m.any (fun p => p.1 = x) then
    m.map (fun p => if p.1 = x then (p.1, p.2 + 1) else p)
  else m ++ [(x, 1)]

/-- The frequency dict of get_mode: one insertIncr per element, in input
order. -/
def buildFreq {α} [DecidableEq α] (l : List α) : List (α × ℕ) :=
  l.foldl insertIncr []

/-- Dict lookup frequency.get(x, 0) (and frequency[x] for keys that are
present). -/
def lookupD {α} [DecidableEq α] (m : List (α × ℕ)) (x : α) : ℕ :=
  ((m.find? (fun p => p.1 = x)).map Prod.snd).getD 0

/-- Python max() over a list of counts.  max() raises on an empty
sequence; the callers below only apply it to the counter of a non-empty
list, where the result is the true maximum (all counts are positive). -/
def listMax (l : List ℕ) : ℕ := l.foldr max 0

/-- get_mode from compute_statistics.py: build the frequency dict, take
the maximal count; if it is 1 return None, otherwise scan the numbers in
original input order and return the first whose frequency equals the
maximal count, canonicalized. -/
def get_mode (numbers : List ℚ) : Option PyNum :=
  let frequency := buildFreq numbers
  let max_count := listMax (frequency.map Prod.snd)
  if max_count = 1 then none
  else
    match numbers.find? (fun number => lookupD frequency number == max_count) with
    | some number => some (canon number)
    | none => none

/-- get_variance from compute_statistics.py: sum of squared deviations
from get_mean, divided by len(numbers) (population variance), then the
is_integer canonicalization. -/
def get_variance (numbers : List ℚ) : PyNum :=
  let local_mean := (get_mean numbers).toRat
  let variance_sum := (numbers.map (fun x => (x - local_mean) ^ 2)).sum
  canon (variance_sum / (numbers.length : ℚ))

/-- The block compute_statistics.py writes on success.  get_std_dev
computes variance ** 0.5 with float arithmetic; its exact real value is
not representable in this exact-arithmetic model, so the report records
the (exact) value the square root is applied to. -/
structure StatsReport where
  mean : PyNum
  median : PyNum
  mode : Option PyNum
  variance : PyNum
  stdDevOf : PyNum
deriving DecidableEq

/-- Outcome of the statistics run after the valid numbers have been
collected: either a fatal error (message printed, sys.exit(1), the output
file is never opened) or the report appended to the output file. -/
inductive StatsOutcome where
  | fatal (msg : String)
  | written (r : StatsReport)
deriving DecidableEq

/-- Lines 190-214 of compute_statistics.py main(): the two insufficient-
data checks, then the five statistics computed and written.  The second
fatal message spans a backslash line continuation in the source; its
inner whitespace is abbreviated here. -/
def statsPhase (valid_numbers : List ℚ) : StatsOutcome :=
  if valid_numbers.length = 0 then
    .fatal "Error: No valid numbers found in the input file."
  else if valid_numbers.length = 1 then
    .fatal "Only one number provided. Variance and standard deviation cannot be calculated."
  else
    .written ⟨get_mean valid_numbers, get_median valid_numbers,
      get_mode valid_numbers, get_variance valid_numbers,
      get_variance valid_numbers⟩

/-! ## convert_numbers.py : the base converter

The while loops are embedded with an explicit fuel argument that only
bounds the recursion depth; the loop guards are the source's own
conditions.  The integer loops are run with fuel n (a number n needs at
most n halvings to reach 0), the fractional loops with fuel 10 (the guard
len < 10 admits at most 10 iterations, each appending at least one
character). -/

/-- Integer part of decimal_to_binary: while integer_number > 0 collect
str(integer_number % 2) most-significant-first. -/
def intLoopBin : ℕ → ℕ → String → String
  | 0, _, acc => acc
  | fuel + 1, integer_number, acc =>
    if 0 < integer_number then
      intLoopBin fuel (integer_number / 2) (Nat.repr (integer_number % 2) ++ acc)
    else acc

/-- Fractional part of decimal_to_binary: while fractional_number > 0 and
fewer than 10 digits collected, multiply by 2, take the integer digit
(int() truncation; the value is nonnegative, so the floor), append
str(bit), subtract the digit. -/
def fracLoopBin : ℕ → ℚ → String → String
  | 0, _, acc => acc
  | fuel + 1, fractional_number, acc =>
    if 0 < fractional_number ∧ acc.length < 10 then
      let f2 := fractional_number * 2
      let bit := (⌊f2⌋).toNat
      fracLoopBin fuel (f2 - (bit : ℚ)) (acc ++ Nat.repr bit)
    else acc

/-- The fractional remainder decimal_to_binary and decimal_to_hexa start
from: abs(x) - int(abs(x)). -/
def fracOf (q : ℚ) : ℚ := |q| - (((⌊|q|⌋).toNat : ℤ) : ℚ)

/-- The fractional digit string decimal_to_binary produces for an input. -/
def binFracStr (q : ℚ) : String := fracLoopBin 10 (fracOf q) ""

/-- decimal_to_binary from convert_numbers.py. -/
def decimal_to_binary (decimal_number : ℚ) : String :=
  if decimal_number = 0 then "0"
  else
    let is_negative := decimal_number < 0
    let a := |decimal_number|
    let integer_number := (⌊a⌋).toNat
    let fractional_number := a - ((integer_number : ℤ) : ℚ)
    let binary_integer := intLoopBin integer_number integer_number ""
    let binary_integer := if binary_integer = "" then "0" else binary_integer
    let binary_fraction := fracLoopBin 10 fractional_number ""
    let binary_number :=
      if binary_fraction = "" then binary_integer
      else binary_integer ++ "." ++ binary_fraction
    if is_negative then "-" ++ binary_number else binary_number

/-- The digit table of decimal_to_hexa. -/
def hexadecimal_digits : String := "0123456789ABCDEF"

/-- The digit table as a character list (Python string indexing). -/
def hexChars : List Char := hexadecimal_digits.data

/-- Integer part of decimal_to_hexa: while integer_number > 0 collect
hexadecimal_digits[integer_number % 16] most-significant-first.  Indexing
is modelled with get?; none models a Python IndexError. -/
def intLoopHex : ℕ → ℕ → String → Option String
  | 0, _, acc => some acc
  | fuel + 1, integer_number, acc =>
    if 0 < integer_number then
      match hexChars.get? (integer_number % 16) with
      | some c => intLoopHex fuel (integer_number / 16) (String.singleton c ++ acc)
      | none => none
    else some acc

/-- Fractional part of decimal_to_hexa: while fractional_number > 0 and
fewer than 10 digits collected, multiply by 16, take the integer digit,
append hexadecimal_digits[digit], subtract the digit.  Indexing is
modelled with get?; none models a Python IndexError. -/
def fracLoopHex : ℕ → ℚ → String → Option String
  | 0, _, acc => some acc
  | fuel + 1, fractional_number, acc =>
    if 0 < fractional_number ∧ acc.length < 10 then
      let f16 := fractional_number * 16
      let digit := (⌊f16⌋).toNat
      match hexChars.get? digit with
      | some c => fracLoopHex fuel (f16 - (digit : ℚ)) (acc.push c)
      | none => none
    else some acc

/-- decimal_to_hexa from convert_numbers.py; none models an uncaught
IndexError from the digit-table indexing (proved unreachable below). -/
def decimal_to_hexa (decimal_number : ℚ) : Option String :=
  if decimal_number = 0 then some "0"
  else
    let is_negative := decimal_number < 0
    let a := |decimal_number|
    let integer_number := (⌊a⌋).toNat
    let fractional_number := a - ((integer_number : ℤ) : ℚ)
    match intLoopHex integer_number integer_number "" with
    | none => none
    | some hexadecimal_integer =>
      let hexadecimal_integer :=
        if hexadecimal_integer = "" then "0" else hexadecimal_integer
      match fracLoopHex 10 fractional_number "" with
      | none => none
      | some hexadecimal_fraction =>
        let hexadecimal_number :=
          if hexadecimal_fraction = "" then hexadecimal_integer
          else hexadecimal_integer ++ "." ++ hexadecimal_fraction
        some (if is_negative then "-" ++ hexadecimal_number else hexadecimal_number)

/-- Value of a binary digit string (int(s, 2) on digit-only strings),
the spec's parseInteger(s, base=2). -/
def parseBin (s : String) : ℕ :=
  s.data.foldl (fun a c => a * 2 + (c.toNat - 48)) 0

/-- Proof-side closed form of the binary integer loop: the binary digit
string of n, most significant digit first, empty for 0. -/
def binStr (n : ℕ) : String :=
  if h : n = 0 then "" else binStr (n / 2) ++ Nat.repr (n % 2)
termination_by n
decreasing_by exact Nat.div_lt_self (Nat.pos_of_ne_zero h) (by omega)

/-- One iteration of the read loop of convert_numbers.py main() (lines
168-182): none stands for a line whose parse raised ValueError
(unparsable text, NaN or an infinity) and leaves valid_numbers
unchanged; a parsed number is appended as the raw float, then
canonicalized to int when whole and appended again. -/
def collectStep (valid_numbers : List PyNum) (o : Option ℚ) : List PyNum :=
  match o with
  | none => valid_numbers
  | some input_number =>
    (valid_numbers ++ [PyNum.float input_number]) ++ [canon input_number]

/-- Lines 165-182 of convert_numbers.py main(): accumulation of
valid_numbers from the per-line parse results. -/
def collect (parsed : List (Option ℚ)) : List PyNum :=
  parsed.foldl collectStep []

/-- Lines 189-196 of convert_numbers.py main(): one output row per entry
of valid_numbers, in order (original value, binary string, hexadecimal
string). -/
def conversionRows (parsed : List (Option ℚ)) : List (PyNum × String × Option String) :=
  (collect parsed).map
    (fun number => (number, decimal_to_binary number.toRat, decimal_to_hexa number.toRat))

/-! ## Input-file access (is_ascii and the prologue shared by the tools)

A file is modelled as missing (none) or as its byte content.  Reading it
with encoding="ascii" raises FileNotFoundError when missing and
UnicodeDecodeError when a byte is outside the ASCII range. -/

/-- Python exceptions relevant to opening and reading the input file. -/
inductive PyExc where
  | fileNotFound
  | unicodeDecodeError
deriving DecidableEq

/-- open(filepath, encoding="ascii") followed by f.read(). -/
def readAscii (file : Option (List ℕ)) : Except PyExc (List ℕ) :=
  match file with
  | none => .error .fileNotFound
  | some bytes =>
    if bytes.all (fun b => b < 128) then .ok bytes else .error .unicodeDecodeError

/-- is_ascii from compute_statistics.py and word_count.py: the result of
f.read().isascii() is discarded and True is returned; only
FileNotFoundError is caught (returning False); any other exception
escapes. -/
def is_ascii (file : Option (List ℕ)) : Except PyExc Bool :=
  match readAscii file with
  | .ok _ => .ok true
  | .error .fileNotFound => .ok false
  | .error e => .error e

/-- is_ascii from convert_numbers.py: returns f.read().isascii() (which
is True whenever the ascii-decode succeeded); only FileNotFoundError is
caught. -/
def is_ascii_convert (file : Option (List ℕ)) : Except PyExc Bool :=
  match readAscii file with
  | .ok bytes => .ok (bytes.all (fun b => b < 128))
  | .error .fileNotFound => .ok false
  | .error e => .error e

/-- Outcome of the input-file check in each main(): proceed past the
check, print the Unable-to-open diagnostic and sys.exit(1), or crash with
an exception that escapes is_ascii. -/
inductive OpenCheck where
  | proceed
  | unableToOpen
  | crash (e : PyExc)
deriving DecidableEq

/-- The "if not is_ascii(input_file)" prologue of compute_statistics.py
and word_count.py main(). -/
def checkInputFile (file : Option (List ℕ)) : OpenCheck :=
  match is_ascii file with
  | .ok true => .proceed
  | .ok false => .unableToOpen
  | .error e => .crash e

/-- The same prologue in convert_numbers.py main(). -/
def checkInputFileConvert (file : Option (List ℕ)) : OpenCheck :=
  match is_ascii_convert file with
  | .ok true => .proceed
  | .ok false => .unableToOpen
  | .error e => .crash e

/-! ## word_count.py : tokenization and the frequency map -/

/-- Python str whitespace on the ASCII range (space, tab, newline,
carriage return, vertical tab, form feed), as used by strip() and
split(). -/
def isPySpace (c : Char) : Bool :=
  c = ' ' || c = '\t' || c = '\n' || c = '\r' || c = Char.ofNat 11 || c = Char.ofNat 12

/-- line.lower() on ASCII text: Char.toLower maps exactly the letters
A-Z to a-z, which is Python str.lower restricted to the ASCII range the
program enforces on its input. -/
def pyLower (s : String) : String := ⟨s.data.map Char.toLower⟩

/-- line.strip(): remove leading and trailing whitespace. -/
def pyStrip (s : String) : String :=
  ⟨((s.data.dropWhile isPySpace).reverse.dropWhile isPySpace).reverse⟩

/-- Worker for split(): scan the characters, accumulating the current
token in reverse; whitespace runs separate tokens and produce no empty
tokens. -/
def pySplitGo : List Char → List Char → List String
  | [], cur => if cur.isEmpty then [] else [⟨cur.reverse⟩]
  | c :: cs, cur =>
    if isPySpace c then
      if cur.isEmpty then pySplitGo cs [] else ⟨cur.reverse⟩ :: pySplitGo cs []
    else pySplitGo cs (c :: cur)

/-- line.split() with no separator: split on whitespace runs, discarding
empty tokens. -/
def pySplit (s : String) : List String := pySplitGo s.data []

/-- The character class [a-zA-Z0-9] of is_valid_word's regular
expression (Char.isAlpha and Char.isDigit cover exactly the ASCII
letters and digits). -/
def isWordChar (c : Char) : Bool := c.isAlpha || c.isDigit

/-- is_valid_word from word_count.py: full match against
[a-zA-Z0-9]+(-[a-zA-Z0-9]+)*, that is, splitting on the hyphens must
leave only non-empty alphanumeric groups (which rules out leading,
trailing and doubled hyphens, and any other character). -/
def is_valid_word (word : String) : Bool :=
  (word.data.splitOnP (fun c => c == '-')).all
    (fun part => !part.isEmpty && part.all isWordChar)

/-- Lines 119-123 of word_count.py main(): word_list collects
line.strip().lower().split() over all lines, in order. -/
def allWords (lines : List String) : List String :=
  (lines.map (fun line => pySplit (pyLower (pyStrip line)))).flatten

/-- Lines 125-134 of word_count.py main(): tally the valid words into
word_map (invalid words are reported and skipped). -/
def word_map (lines : List String) : List (String × ℕ) :=
  (allWords lines).foldl
    (fun m word => if is_valid_word word then insertIncr m word else m) []

/-! ## Definitions written from the spec, for the refinement claims -/

/-- Modelled from the spec: population variance, the mean of squared
deviations from the mean, with divisor N (section 4.3 of the spec). -/
def popVariance (l : List ℚ) : ℚ :=
  (l.map (fun x => (x - l.sum / (l.length : ℚ)) ^ 2)).sum / (l.length : ℚ)

/-- Modelled from the spec: the maximum frequency of any value of the
sequence. -/
def specMaxFreq (l : List ℚ) : ℕ := listMax (l.map (fun x => l.count x))

/-! ## Helper lemmas -/

theorem toRat_canon (q : ℚ) : (canon q).toRat = q := by
  unfold canon
  split
  · next h =>
    show ((q.num : ℤ) : ℚ) = q
    have hd := Rat.num_div_den q
    rw [h] at hd
    simpa using hd
  · rfl

theorem canon_intCast (n : ℤ) : canon (n : ℚ) = .int n := by
  simp [canon, Rat.den_intCast, Rat.num_intCast]

theorem collect_foldl_length (parsed : List (Option ℚ)) :
    ∀ acc : List PyNum,
      (parsed.foldl collectStep acc).length
        = acc.length + 2 * (parsed.filterMap id).length := by
  induction parsed with
  | nil => intro acc; simp
  | cons o t ih =>
    intro acc
    cases o with
    | none => simpa [collectStep] using ih acc
    | some x =>
      rw [List.foldl_cons, show collectStep acc (some x)
        = (acc ++ [PyNum.float x]) ++ [canon x] from rfl,
        ih ((acc ++ [PyNum.float x]) ++ [canon x])]
      simp [List.filterMap_cons]
      omega

/-- C1: the spec requires exactly one ConversionRow per valid input
number, in input order.  The source appends every successfully parsed
number to valid_numbers twice (once as the raw float, once after the
int canonicalization), so each valid line yields two rows: on an input
file whose single line parses to 5 the results table has two rows, and
in general the row count is twice the number of valid lines. -/
theorem c1_conversion_rows_doubled :
    (conversionRows [some (5 : ℚ)]).length = 2
    ∧ ([some (5 : ℚ)].filterMap id).length = 1
    ∧ ∀ parsed : List (Option ℚ),
        (collect parsed).length = 2 * (parsed.filterMap id).length := by
  refine ⟨?_, by simp, fun parsed => ?_⟩
  · simp [conversionRows, collect, collectStep]
  · rw [collect, collect_foldl_length parsed []]
    simp

/-- C2: for an existing but non-ASCII-decodable input file (for example
one containing the byte 200) f.read() raises UnicodeDecodeError, which
is_ascii does not catch (it only catches FileNotFoundError), so all
three programs crash with an uncaught exception instead of printing the
Unable-to-open diagnostic and exiting with code 1.  A missing file does
take the diagnostic path. -/
theorem c2_nonascii_input_crash :
    checkInputFile (some [200]) = .crash .unicodeDecodeError
    ∧ checkInputFileConvert (some [200]) = .crash .unicodeDecodeError
    ∧ checkInputFile none = .unableToOpen
    ∧ checkInputFileConvert none = .unableToOpen :=
  ⟨rfl, rfl, rfl, rfl⟩

/-- C8: with zero or one valid numbers the statistics run is fatal (an
error message, exit code 1, and the output file is never written); with
two or more valid numbers all five statistics are computed and written. -/
theorem c8_insufficient_data :
    ∀ valid_numbers : List ℚ,
      ((valid_numbers.length = 0 ∨ valid_numbers.length = 1) →
        ∃ msg, statsPhase valid_numbers = .fatal msg)
      ∧ (2 ≤ valid_numbers.length →
        statsPhase valid_numbers = .written
          ⟨get_mean valid_numbers, get_median valid_numbers, get_mode valid_numbers,
            get_variance valid_numbers, get_variance valid_numbers⟩) := by
  intro l
  constructor
  · rintro (h | h)
    · refine ⟨"Error: No valid numbers found in the input file.", ?_⟩
      simp [statsPhase, h]
    · refine ⟨"Only one number provided. Variance and standard deviation cannot be calculated.", ?_⟩
      simp [statsPhase, h]
  · intro h
    have h0 : ¬ l.length = 0 := by omega
    have h1 : ¬ l.length = 1 := by omega
    simp [statsPhase, h0, h1]

theorem c8_insufficient_data_witness :
    ((([] : List ℚ).length = 0 ∨ ([] : List ℚ).length = 1)
      ∧ ∃ msg, statsPhase ([] : List ℚ) = .fatal msg)
    ∧ (2 ≤ ([1, 2] : List ℚ).length
      ∧ statsPhase [1, 2] = .written
          ⟨get_mean [1, 2], get_median [1, 2], get_mode [1, 2],
            get_variance [1, 2], get_variance [1, 2]⟩) :=
  ⟨⟨Or.inl rfl, (c8_insufficient_data []).1 (Or.inl rfl)⟩,
    ⟨by decide, (c8_insufficient_data [1, 2]).2 (by decide)⟩⟩

/-- C4: get_variance is the population variance (sum of squared
deviations from the mean divided by N, not N-1), canonicalized to an
integer exactly when the value is whole. -/
theorem c4_population_variance :
    ∀ numbers : List ℚ, 2 ≤ numbers.length →
      get_variance numbers = canon (popVariance numbers)
      ∧ (∀ n : ℤ, popVariance numbers = (n : ℚ) → get_variance numbers = .int n)
      ∧ ((popVariance numbers).den ≠ 1 →
          get_variance numbers = .float (popVariance numbers)) := by
  intro numbers _
  have hmean : (get_mean numbers).toRat = numbers.sum / (numbers.length : ℚ) :=
    toRat_canon _
  have hmain : get_variance numbers = canon (popVariance numbers) := by
    unfold get_variance popVariance
    rw [hmean]
  refine ⟨hmain, fun n hn => ?_, fun hd => ?_⟩
  · rw [hmain, hn, canon_intCast]
  · rw [hmain]
    simp [canon, hd]

theorem c4_population_variance_witness :
    2 ≤ ([1, 2] : List ℚ).length
    ∧ get_variance [1, 2] = canon (popVariance [1, 2]) :=
  ⟨by decide, (c4_population_variance [1, 2] (by decide)).1⟩

/-- C5: get_median sorts ascending and returns the middle element (odd
count) or the average of the two middle elements (even count),
canonicalized; stated against any sorted permutation of the input (the
sorted permutation of a list of rationals is unique), with the spec's
two examples. -/
theorem c5_median_sorted_middle :
    (∀ (numbers s : List ℚ), 2 ≤ numbers.length → numbers.Perm s →
        s.Sorted (· ≤ ·) →
        get_median numbers =
          if numbers.length % 2 = 0 then
            canon ((s.getD (numbers.length / 2 - 1) 0
              + s.getD (numbers.length / 2) 0) / 2)
          else canon (s.getD (numbers.length / 2) 0))
    ∧ get_median [1, 2, 3, 4] = .float (5 / 2)
    ∧ get_median [1, 2, 3] = .int 2 := by
  refine ⟨?_, ?_, ?_⟩
  · intro numbers s _ hperm hsort
    have hs : s = List.insertionSort (· ≤ ·) numbers :=
      List.eq_of_perm_of_sorted
        (hperm.symm.trans (List.perm_insertionSort (· ≤ ·) numbers).symm)
        hsort (List.sorted_insertionSort (· ≤ ·) numbers)
    subst hs
    rfl
  · have h4 : List.insertionSort (· ≤ ·) ([1, 2, 3, 4] : List ℚ) = [1, 2, 3, 4] := by
      decide
    have hd : ((5 : ℚ) / 2).den = 2 := by
      norm_num [Rat.den]
    simp only [get_median, h4]
    norm_num [canon, hd]
  · have h3 : List.insertionSort (· ≤ ·) ([1, 2, 3] : List ℚ) = [1, 2, 3] := by
      decide
    have hc : canon ((2 : ℤ) : ℚ) = .int 2 := canon_intCast 2
    simp only [get_median, h3]
    norm_num
    simpa using hc

theorem c5_median_sorted_middle_witness :
    (2 ≤ ([2, 1] : List ℚ).length ∧ ([2, 1] : List ℚ).Perm [1, 2]
      ∧ ([1, 2] : List ℚ).Sorted (· ≤ ·))
    ∧ get_median [2, 1] =
        if ([2, 1] : List ℚ).length % 2 = 0 then
          canon ((([1, 2] : List ℚ).getD (([2, 1] : List ℚ).length / 2 - 1) 0
            + ([1, 2] : List ℚ).getD (([2, 1] : List ℚ).length / 2) 0) / 2)
        else canon (([1, 2] : List ℚ).getD (([2, 1] : List ℚ).length / 2) 0) :=
  ⟨⟨by decide, by decide, by decide⟩,
    c5_median_sorted_middle.1 [2, 1] [1, 2] (by decide) (by decide) (by decide)⟩

/-! ### Lemmas on the frequency dict of get_mode -/

theorem lookupD_insertIncr {α} [DecidableEq α] (m : List (α × ℕ)) (y x : α) :
    lookupD (insertIncr m y) x = lookupD m x + if x = y then 1 else 0 := by
  unfold insertIncr lookupD
  by_cases hmem : m.any (fun p => decide (p.1 = y)) = true
  · rw [if_pos hmem, List.find?_map]
    have hcomp :
        ((fun p : α × ℕ => decide (p.1 = x)) ∘
          (fun p : α × ℕ => if p.1 = y then (p.1, p.2 + 1) else p))
          = fun p : α × ℕ => decide (p.1 = x) := by
      funext p
      by_cases hpy : p.1 = y <;> simp [hpy]
    rw [hcomp]
    by_cases hxy : x = y
    · have hsome : (m.find? (fun p : α × ℕ => decide (p.1 = x))).isSome := by
        rw [List.find?_isSome]
        obtain ⟨p, hpm, hpx⟩ := List.any_eq_true.mp hmem
        refine ⟨p, hpm, ?_⟩
        rw [hxy]
        exact hpx
      obtain ⟨p₀, hp₀⟩ := Option.isSome_iff_exists.mp hsome
      have hkey : p₀.1 = x := by simpa using List.find?_some hp₀
      have hkey2 : p₀.1 = y := hkey.trans hxy
      rw [hp₀]
      simp [hkey2, hxy]
    · cases hfind : m.find? (fun p : α × ℕ => decide (p.1 = x)) with
      | none => simp [hxy]
      | some p₀ =>
        have hkey : p₀.1 = x := by simpa using List.find?_some hfind
        have hpy : ¬ p₀.1 = y := fun he => hxy (hkey.symm.trans he)
        simp [hxy, hpy]
  · rw [if_neg hmem, List.find?_append]
    by_cases hxy : x = y
    · have hnone : m.find? (fun p : α × ℕ => decide (p.1 = x)) = none := by
        rw [List.find?_eq_none]
        intro p hp hpx
        rw [hxy] at hpx
        exact absurd (List.any_eq_true.mpr ⟨p, hp, hpx⟩) hmem
      rw [hnone]
      have hsingle :
          ([(y, 1)] : List (α × ℕ)).find? (fun p => decide (p.1 = x)) = some (y, 1) := by
        simp [hxy]
      rw [hsingle]
      simp [hxy]
    · have hyx : ¬ (y = x) := fun h => hxy h.symm
      have hsingle :
          ([(y, 1)] : List (α × ℕ)).find? (fun p => decide (p.1 = x)) = none := by
        simp [hyx]
      rw [hsingle, Option.or_none]
      simp [hxy]

theorem lookupD_foldl {α} [DecidableEq α] (l : List α) :
    ∀ (m : List (α × ℕ)) (x : α),
      lookupD (l.foldl insertIncr m) x = lookupD m x + l.count x := by
  induction l with
  | nil => intro m x; simp
  | cons y t ih =>
    intro m x
    rw [List.foldl_cons, ih, lookupD_insertIncr, List.count_cons]
    by_cases hxy : x = y
    · rw [if_pos hxy, if_pos (beq_iff_eq.mpr hxy.symm)]
      omega
    · rw [if_neg hxy, if_neg (fun h => hxy (beq_iff_eq.mp h).symm)]
      omega

theorem lookupD_buildFreq {α} [DecidableEq α] (l : List α) (x : α) :
    lookupD (buildFreq l) x = l.count x := by
  rw [buildFreq, lookupD_foldl]
  simp [lookupD]

theorem insertIncr_pos {α} [DecidableEq α] {m : List (α × ℕ)} {y : α}
    (h : ∀ p ∈ m, 0 < p.2) : ∀ p ∈ insertIncr m y, 0 < p.2 := by
  intro p hp
  unfold insertIncr at hp
  split at hp
  · obtain ⟨q, hq, hfq⟩ := List.mem_map.mp hp
    by_cases hqy : q.1 = y
    · rw [if_pos hqy] at hfq
      rw [← hfq]
      exact Nat.succ_pos _
    · rw [if_neg hqy] at hfq
      rw [← hfq]
      exact h q hq
  · rcases List.mem_append.mp hp with h1 | h2
    · exact h p h1
    · have hp2 : p = (y, 1) := by simpa using h2
      rw [hp2]
      exact Nat.one_pos

theorem buildFreq_pos {α} [DecidableEq α] (l : List α) :
    ∀ p ∈ buildFreq l, 0 < p.2 := by
  suffices h : ∀ (l : List α) (m : List (α × ℕ)), (∀ p ∈ m, 0 < p.2) →
      ∀ p ∈ l.foldl insertIncr m, 0 < p.2 by
    exact h l [] (by simp)
  intro l
  induction l with
  | nil => intro m hm; simpa using hm
  | cons y t ih =>
    intro m hm
    rw [List.foldl_cons]
    exact ih _ (insertIncr_pos hm)

theorem buildFreq_keys_nodup {α} [DecidableEq α] (l : List α) :
    ((buildFreq l).map Prod.fst).Nodup := by
  suffices h : ∀ (l : List α) (m : List (α × ℕ)), (m.map Prod.fst).Nodup →
      ((l.foldl insertIncr m).map Prod.fst).Nodup by
    exact h l [] (by simp)
  intro l
  induction l with
  | nil => intro m hm; simpa using hm
  | cons y t ih =>
    intro m hm
    rw [List.foldl_cons]
    apply ih
    unfold insertIncr
    split
    · rw [List.map_map]
      have hkeys : (Prod.fst ∘ fun p : α × ℕ => if p.1 = y then (p.1, p.2 + 1) else p)
          = (Prod.fst : α × ℕ → α) := by
        funext p
        by_cases hpy : p.1 = y <;> simp [hpy]
      rw [hkeys]
      exact hm
    · next hmem =>
      rw [List.map_append]
      have hy : y ∉ m.map Prod.fst := by
        intro hy
        obtain ⟨p, hp, hpy⟩ := List.mem_map.mp hy
        exact hmem (List.any_eq_true.mpr ⟨p, hp, by simp [hpy]⟩)
      refine List.Nodup.append hm (List.nodup_singleton y) ?_
      intro a ha hay
      have : a = y := by simpa using hay
      rw [this] at ha
      exact hy ha

theorem find?_key_self {α} [DecidableEq α] :
    ∀ (m : List (α × ℕ)), (m.map Prod.fst).Nodup →
      ∀ p ∈ m, m.find? (fun q => decide (q.1 = p.1)) = some p := by
  intro m
  induction m with
  | nil => intro _ p hp; simp at hp
  | cons q t ih =>
    intro hnd p hp
    rw [List.map_cons] at hnd
    have hnd' := List.nodup_cons.mp hnd
    rcases List.mem_cons.mp hp with rfl | hpt
    · simp
    · have hq : ¬ (q.1 = p.1) := by
        intro he
        apply hnd'.1
        rw [he]
        exact List.mem_map.mpr ⟨p, hpt, rfl⟩
      rw [List.find?_cons_of_neg _ (by simp [hq])]
      exact ih hnd'.2 p hpt

theorem buildFreq_val {α} [DecidableEq α] (l : List α) {p : α × ℕ}
    (hp : p ∈ buildFreq l) : p.2 = l.count p.1 := by
  have hfind := find?_key_self (buildFreq l) (buildFreq_keys_nodup l) p hp
  have hlook : lookupD (buildFreq l) p.1 = p.2 := by
    unfold lookupD
    rw [hfind]
    rfl
  rw [← hlook, lookupD_buildFreq]

theorem buildFreq_key_mem {α} [DecidableEq α] (l : List α) {p : α × ℕ}
    (hp : p ∈ buildFreq l) : p.1 ∈ l := by
  have h1 : 0 < p.2 := buildFreq_pos l p hp
  have h2 : p.2 = l.count p.1 := buildFreq_val l hp
  exact List.count_pos_iff.mp (h2 ▸ h1)

theorem buildFreq_surj {α} [DecidableEq α] (l : List α) {x : α} (hx : x ∈ l) :
    ∃ p ∈ buildFreq l, p.1 = x ∧ p.2 = l.count x := by
  have hc : lookupD (buildFreq l) x = l.count x := lookupD_buildFreq l x
  have hpos : 0 < l.count x := List.count_pos_iff.mpr hx
  unfold lookupD at hc
  cases hfind : (buildFreq l).find? (fun p => decide (p.1 = x)) with
  | none =>
    rw [hfind] at hc
    simp at hc
    omega
  | some p =>
    rw [hfind] at hc
    simp at hc
    have hkey : p.1 = x := by simpa using List.find?_some hfind
    exact ⟨p, List.mem_of_find?_eq_some hfind, hkey, hc⟩

theorem le_listMax {l : List ℕ} {x : ℕ} (h : x ∈ l) : x ≤ listMax l := by
  induction l with
  | nil => simp at h
  | cons a t ih =>
    rcases List.mem_cons.mp h with rfl | ht
    · exact Nat.le_max_left _ _
    · exact le_trans (ih ht) (Nat.le_max_right _ _)

theorem listMax_le {l : List ℕ} {b : ℕ} (h : ∀ x ∈ l, x ≤ b) : listMax l ≤ b := by
  induction l with
  | nil => exact Nat.zero_le b
  | cons a t ih =>
    have hmax : max a (listMax t) ≤ b :=
      max_le (h a (by simp)) (ih (fun x hx => h x (by simp [hx])))
    simpa [listMax] using hmax

theorem maxCount_eq_specMaxFreq (l : List ℚ) :
    listMax ((buildFreq l).map Prod.snd) = specMaxFreq l := by
  unfold specMaxFreq
  apply Nat.le_antisymm
  · apply listMax_le
    intro a ha
    obtain ⟨p, hp, rfl⟩ := List.mem_map.mp ha
    have hval : p.2 = l.count p.1 := buildFreq_val l hp
    have hmem : p.1 ∈ l := buildFreq_key_mem l hp
    have hin : p.2 ∈ l.map (fun x => l.count x) := by
      rw [hval]
      exact List.mem_map.mpr ⟨p.1, hmem, rfl⟩
    exact le_listMax hin
  · apply listMax_le
    intro a ha
    obtain ⟨x, hx, rfl⟩ := List.mem_map.mp ha
    obtain ⟨p, hp, hkey, hval⟩ := buildFreq_surj l hx
    have hin : l.count x ∈ (buildFreq l).map Prod.snd := by
      rw [← hval]
      exact List.mem_map.mpr ⟨p, hp, rfl⟩
    exact le_listMax hin

theorem find?_congr_mem {α} (l : List α) (p q : α → Bool)
    (h : ∀ x ∈ l, p x = q x) : l.find? p = l.find? q := by
  induction l with
  | nil => rfl
  | cons a t ih =>
    have ha := h a (by simp)
    by_cases hpa : p a = true
    · rw [List.find?_cons_of_pos _ hpa, List.find?_cons_of_pos _ (ha ▸ hpa)]
    · rw [List.find?_cons_of_neg _ hpa, List.find?_cons_of_neg _ (by rw [← ha]; exact hpa)]
      exact ih (fun x hx => h x (by simp [hx]))

/-- C3: get_mode returns None when the maximum frequency is 1 and
otherwise the first value in original input order whose frequency is
maximal, canonicalized; with the spec's two examples. -/
theorem c3_mode_first_max_frequency :
    (∀ numbers : List ℚ, 2 ≤ numbers.length →
      (specMaxFreq numbers = 1 → get_mode numbers = none)
      ∧ (1 < specMaxFreq numbers →
          ∀ x : ℚ,
            numbers.find? (fun y => numbers.count y == specMaxFreq numbers) = some x →
            get_mode numbers = some (canon x)))
    ∧ get_mode [1, 1, 2, 2, 3] = some (.int 1)
    ∧ get_mode [1, 2, 3] = none := by
  refine ⟨?_, ?_, ?_⟩
  · intro numbers _
    have hmc := maxCount_eq_specMaxFreq numbers
    have hfind :
        numbers.find? (fun y => lookupD (buildFreq numbers) y == specMaxFreq numbers)
          = numbers.find? (fun y => numbers.count y == specMaxFreq numbers) := by
      apply find?_congr_mem
      intro y _
      rw [lookupD_buildFreq]
    constructor
    · intro h1
      simp only [get_mode]
      rw [hmc, h1]
      simp
    · intro hgt x hx
      simp only [get_mode]
      rw [hmc]
      rw [if_neg (by omega)]
      rw [hfind, hx]
  · decide
  · decide

theorem c3_mode_first_max_frequency_witness :
    (2 ≤ ([1, 1, 2] : List ℚ).length
      ∧ 1 < specMaxFreq [1, 1, 2]
      ∧ ([1, 1, 2] : List ℚ).find?
          (fun y => ([1, 1, 2] : List ℚ).count y == specMaxFreq [1, 1, 2]) = some 1)
    ∧ get_mode [1, 1, 2] = some (canon 1) :=
  ⟨⟨by decide, by decide, by decide⟩,
    (c3_mode_first_max_frequency.1 [1, 1, 2] (by decide)).2 (by decide) 1 (by decide)⟩

/-! ### String and decimal-representation helper lemmas -/

theorem string_data_empty : ("" : String).data = [] := rfl

theorem string_empty_append (s : String) : "" ++ s = s :=
  String.ext (by rw [String.data_append, string_data_empty, List.nil_append])

theorem string_append_empty (s : String) : s ++ "" = s :=
  String.ext (by rw [String.data_append, string_data_empty, List.append_nil])

theorem string_append_assoc (a b c : String) : (a ++ b) ++ c = a ++ (b ++ c) :=
  String.ext (by simp [String.data_append])

theorem string_length_data (s : String) : s.length = s.data.length := rfl

theorem string_length_append (s t : String) : (s ++ t).length = s.length + t.length := by
  rw [string_length_data, string_length_data, string_length_data,
    String.data_append, List.length_append]

theorem string_ne_empty_of_data_ne_nil {s : String} (h : s.data ≠ []) : s ≠ "" :=
  fun he => h (by rw [he, string_data_empty])

theorem toDigitsCore_length_mono (b : ℕ) :
    ∀ (fuel n : ℕ) (ds : List Char), ds.length ≤ (Nat.toDigitsCore b fuel n ds).length := by
  intro fuel
  induction fuel with
  | zero => intro n ds; simp [Nat.toDigitsCore]
  | succ fuel ih =>
    intro n ds
    simp only [Nat.toDigitsCore]
    split
    · simp
    · exact le_trans (by simp) (ih (n / b) (Nat.digitChar (n % b) :: ds))

theorem repr_length_pos (n : ℕ) : 0 < (Nat.repr n).length := by
  show 0 < (List.asString (Nat.toDigits 10 n)).length
  have h : 0 < (Nat.toDigits 10 n).length := by
    show 0 < (Nat.toDigitsCore 10 (n + 1) n []).length
    simp only [Nat.toDigitsCore]
    split
    · simp
    · have h1 : ([Nat.digitChar (n % 10)]).length ≤
          (Nat.toDigitsCore 10 n (n / 10) [Nat.digitChar (n % 10)]).length :=
        toDigitsCore_length_mono 10 n (n / 10) [Nat.digitChar (n % 10)]
      simp only [List.length_singleton] at h1
      omega
  exact h

theorem digitChar_mem_digits :
    ∀ k : ℕ, k < 10 →
      Nat.digitChar k ∈ ['0', '1', '2', '3', '4', '5', '6', '7', '8', '9'] := by
  decide

theorem toDigitsCore_mem (fuel : ℕ) :
    ∀ (m : ℕ) (ds : List Char) (c : Char), c ∈ Nat.toDigitsCore 10 fuel m ds →
      c ∈ ds ∨ c ∈ ['0', '1', '2', '3', '4', '5', '6', '7', '8', '9'] := by
  induction fuel with
  | zero =>
    intro m ds c hc
    exact Or.inl (by simpa [Nat.toDigitsCore] using hc)
  | succ fuel ih =>
    intro m ds c hc
    simp only [Nat.toDigitsCore] at hc
    have hd : Nat.digitChar (m % 10) ∈ ['0', '1', '2', '3', '4', '5', '6', '7', '8', '9'] :=
      digitChar_mem_digits (m % 10) (Nat.mod_lt _ (by omega))
    split at hc
    · rcases List.mem_cons.mp hc with rfl | h
      · exact Or.inr hd
      · exact Or.inl h
    · rcases ih (m / 10) (Nat.digitChar (m % 10) :: ds) c hc with h | h
      · rcases List.mem_cons.mp h with rfl | h2
        · exact Or.inr hd
        · exact Or.inl h2
      · exact Or.inr h

theorem repr_data_digits (n : ℕ) :
    ∀ c ∈ (Nat.repr n).data, c ∈ ['0', '1', '2', '3', '4', '5', '6', '7', '8', '9'] := by
  intro c hc
  have hc2 : c ∈ Nat.toDigitsCore 10 (n + 1) n [] := hc
  rcases toDigitsCore_mem (n + 1) n [] c hc2 with h | h
  · simp at h
  · exact h

theorem binStr_zero : binStr 0 = "" := by
  rw [binStr]
  simp

theorem binStr_pos (n : ℕ) (h : n ≠ 0) :
    binStr n = binStr (n / 2) ++ Nat.repr (n % 2) := by
  conv_lhs => rw [binStr]
  rw [dif_neg h]

theorem binStr_ne_empty (n : ℕ) (h : n ≠ 0) : binStr n ≠ "" := by
  rw [binStr_pos n h]
  intro he
  have hd := congrArg String.data he
  rw [String.data_append, string_data_empty, List.append_eq_nil] at hd
  have hlen : (Nat.repr (n % 2)).data.length = 0 := by rw [hd.2]; rfl
  have hpos := repr_length_pos (n % 2)
  rw [string_length_data] at hpos
  omega

theorem binStr_digits (n : ℕ) :
    ∀ c ∈ (binStr n).data, c = '0' ∨ c = '1' := by
  induction n using Nat.strong_induction_on with
  | _ n ih =>
    intro c hc
    by_cases h0 : n = 0
    · rw [h0, binStr_zero, string_data_empty] at hc
      simp at hc
    · rw [binStr_pos n h0, String.data_append] at hc
      rcases List.mem_append.mp hc with h | h
      · exact ih (n / 2) (Nat.div_lt_self (by omega) (by omega)) c h
      · have h2 : n % 2 = 0 ∨ n % 2 = 1 := by omega
        rcases h2 with h2 | h2
        · rw [h2, show (Nat.repr 0).data = ['0'] from by decide] at h
          simp at h
          exact Or.inl h
        · rw [h2, show (Nat.repr 1).data = ['1'] from by decide] at h
          simp at h
          exact Or.inr h

theorem intLoopBin_eq (fuel : ℕ) :
    ∀ (n : ℕ) (acc : String), n ≤ fuel → intLoopBin fuel n acc = binStr n ++ acc := by
  induction fuel with
  | zero =>
    intro n acc hn
    have h0 : n = 0 := by omega
    rw [h0, binStr_zero, string_empty_append]
    rfl
  | succ fuel ih =>
    intro n acc hn
    by_cases h0 : 0 < n
    · have hdiv : n / 2 ≤ fuel := by
        have := Nat.div_lt_self h0 (by omega : 1 < 2)
        omega
      simp only [intLoopBin]
      rw [if_pos h0, ih (n / 2) _ hdiv, binStr_pos n (by omega), string_append_assoc]
    · have h0' : n = 0 := by omega
      simp only [intLoopBin]
      rw [if_neg h0, h0', binStr_zero, string_empty_append]

theorem parse_foldl_binStr (n : ℕ) :
    ∀ a : ℕ,
      List.foldl (fun a c => a * 2 + (c.toNat - 48)) a (binStr n).data
        = a * 2 ^ (binStr n).data.length + n := by
  induction n using Nat.strong_induction_on with
  | _ n ih =>
    intro a
    by_cases h0 : n = 0
    · rw [h0, binStr_zero, string_data_empty]
      simp
    · rw [binStr_pos n h0, String.data_append, List.foldl_append, List.length_append,
        ih (n / 2) (Nat.div_lt_self (by omega) (by omega)) a]
      have h2 : n % 2 = 0 ∨ n % 2 = 1 := by omega
      rcases h2 with h2 | h2
      · rw [h2, show (Nat.repr 0).data = ['0'] from by decide]
        simp only [List.foldl_cons, List.foldl_nil, List.length_singleton]
        rw [show ('0'.toNat - 48) = 0 from by decide, pow_succ, ← mul_assoc]
        omega
      · rw [h2, show (Nat.repr 1).data = ['1'] from by decide]
        simp only [List.foldl_cons, List.foldl_nil, List.length_singleton]
        rw [show ('1'.toNat - 48) = 1 from by decide, pow_succ, ← mul_assoc]
        omega

theorem parseBin_binStr (n : ℕ) : parseBin (binStr n) = n := by
  have h := parse_foldl_binStr n 0
  rw [parseBin, h]
  simp

theorem fracLoopBin_of_nonpos (fuel : ℕ) (f : ℚ) (acc : String) (h : ¬ 0 < f) :
    fracLoopBin fuel f acc = acc := by
  cases fuel with
  | zero => rfl
  | succ fuel =>
    simp only [fracLoopBin]
    rw [if_neg]
    intro hc
    exact h hc.1

theorem decimal_to_binary_natCast (n : ℕ) (h : n ≠ 0) :
    decimal_to_binary (n : ℚ) = binStr n := by
  have h0 : ((n : ℚ)) ≠ 0 := by exact_mod_cast h
  have habs : |(n : ℚ)| = (n : ℚ) := abs_of_nonneg (Nat.cast_nonneg n)
  have hfloor : ⌊(n : ℚ)⌋ = (n : ℤ) := Int.floor_natCast n
  have hneg : ¬ ((n : ℚ) < 0) := not_lt.mpr (Nat.cast_nonneg n)
  simp only [decimal_to_binary]
  rw [if_neg h0]
  simp only [habs, hfloor, Int.toNat_natCast]
  rw [show (n : ℚ) - (((n : ℤ)) : ℚ) = 0 from by push_cast; ring]
  rw [fracLoopBin_of_nonpos 10 0 "" (by norm_num)]
  rw [intLoopBin_eq n n "" le_rfl, string_append_empty]
  rw [if_neg (binStr_ne_empty n h)]
  rw [if_pos rfl]
  rw [if_neg hneg]

/-- C7: parsing the string decimal_to_binary produces for a nonnegative
integer back as a base-2 numeral reconstructs the integer exactly, and
integer inputs produce an empty fractional part, so the 10-digit cap is
never reached for them. -/
theorem c7_binary_round_trip :
    ∀ n : ℕ, parseBin (decimal_to_binary (n : ℚ)) = n ∧ binFracStr (n : ℚ) = "" := by
  intro n
  have hfrac : binFracStr (n : ℚ) = "" := by
    have hz : fracOf (n : ℚ) = 0 := by
      unfold fracOf
      rw [abs_of_nonneg (Nat.cast_nonneg n), Int.floor_natCast, Int.toNat_natCast]
      push_cast
      ring
    rw [binFracStr, hz, fracLoopBin_of_nonpos 10 0 "" (by norm_num)]
  refine ⟨?_, hfrac⟩
  by_cases h : n = 0
  · rw [h, show ((0 : ℕ) : ℚ) = 0 from by norm_num,
      show decimal_to_binary 0 = "0" from by simp [decimal_to_binary]]
    decide
  · rw [decimal_to_binary_natCast n h, parseBin_binStr]

theorem frac_step2 {f : ℚ} (h0 : 0 ≤ f) (h1 : f < 1) :
    (⌊f * 2⌋).toNat ≤ 1 ∧ (((⌊f * 2⌋).toNat : ℕ) : ℚ) = ((⌊f * 2⌋ : ℤ) : ℚ)
      ∧ 0 ≤ f * 2 - (((⌊f * 2⌋).toNat : ℕ) : ℚ)
      ∧ f * 2 - (((⌊f * 2⌋).toNat : ℕ) : ℚ) < 1 := by
  have hm0 : 0 ≤ f * 2 := by linarith
  have hm1 : f * 2 < 2 := by linarith
  have hfl0 : (0 : ℤ) ≤ ⌊f * 2⌋ := Int.floor_nonneg.mpr hm0
  have hfl1 : ⌊f * 2⌋ < 2 := by
    rw [Int.floor_lt]
    exact_mod_cast hm1
  have hcast : (((⌊f * 2⌋).toNat : ℕ) : ℚ) = ((⌊f * 2⌋ : ℤ) : ℚ) := by
    rw [← Int.cast_natCast, Int.toNat_of_nonneg hfl0]
  refine ⟨by omega, hcast, ?_, ?_⟩
  · rw [hcast, Int.self_sub_floor]
    exact Int.fract_nonneg _
  · rw [hcast, Int.self_sub_floor]
    exact Int.fract_lt_one _

theorem frac_step16 {f : ℚ} (h0 : 0 ≤ f) (h1 : f < 1) :
    (⌊f * 16⌋).toNat ≤ 15 ∧ (((⌊f * 16⌋).toNat : ℕ) : ℚ) = ((⌊f * 16⌋ : ℤ) : ℚ)
      ∧ 0 ≤ f * 16 - (((⌊f * 16⌋).toNat : ℕ) : ℚ)
      ∧ f * 16 - (((⌊f * 16⌋).toNat : ℕ) : ℚ) < 1 := by
  have hm0 : 0 ≤ f * 16 := by linarith
  have hm1 : f * 16 < 16 := by linarith
  have hfl0 : (0 : ℤ) ≤ ⌊f * 16⌋ := Int.floor_nonneg.mpr hm0
  have hfl1 : ⌊f * 16⌋ < 16 := by
    rw [Int.floor_lt]
    exact_mod_cast hm1
  have hcast : (((⌊f * 16⌋).toNat : ℕ) : ℚ) = ((⌊f * 16⌋ : ℤ) : ℚ) := by
    rw [← Int.cast_natCast, Int.toNat_of_nonneg hfl0]
  refine ⟨by omega, hcast, ?_, ?_⟩
  · rw [hcast, Int.self_sub_floor]
    exact Int.fract_nonneg _
  · rw [hcast, Int.self_sub_floor]
    exact Int.fract_lt_one _

theorem fracOf_eq_fract (q : ℚ) : fracOf q = Int.fract |q| := by
  unfold fracOf
  have h0 : (0 : ℤ) ≤ ⌊|q|⌋ := Int.floor_nonneg.mpr (abs_nonneg q)
  rw [show (((⌊|q|⌋).toNat : ℤ) : ℚ) = ((⌊|q|⌋ : ℤ) : ℚ) from by
    rw [Int.toNat_of_nonneg h0]]
  exact Int.self_sub_floor _

theorem fracOf_nonneg (q : ℚ) : 0 ≤ fracOf q := by
  rw [fracOf_eq_fract]
  exact Int.fract_nonneg _

theorem fracOf_lt_one (q : ℚ) : fracOf q < 1 := by
  rw [fracOf_eq_fract]
  exact Int.fract_lt_one _

theorem fracOf_zero : fracOf 0 = 0 := by
  rw [fracOf_eq_fract, abs_zero, Int.fract_zero]

theorem fracLoopBin_invariant (fuel : ℕ) :
    ∀ (f : ℚ) (acc : String), 0 ≤ f → f < 1 →
      (fracLoopBin fuel f acc).length ≤ max acc.length 10
      ∧ ∀ c ∈ (fracLoopBin fuel f acc).data, c ∈ acc.data ∨ c = '0' ∨ c = '1' := by
  induction fuel with
  | zero =>
    intro f acc _ _
    exact ⟨le_max_left _ _, fun c hc => Or.inl hc⟩
  | succ fuel ih =>
    intro f acc h0 h1
    simp only [fracLoopBin]
    by_cases hc : 0 < f ∧ acc.length < 10
    · rw [if_pos hc]
      obtain ⟨hbit, hcast, hf0, hf1⟩ := frac_step2 h0 h1
      have hrepr : Nat.repr ((⌊f * 2⌋).toNat) = "0" ∨ Nat.repr ((⌊f * 2⌋).toNat) = "1" := by
        have hb : (⌊f * 2⌋).toNat = 0 ∨ (⌊f * 2⌋).toNat = 1 := by omega
        rcases hb with hb | hb <;> rw [hb]
        · exact Or.inl (by decide)
        · exact Or.inr (by decide)
      have hlen1 : (Nat.repr ((⌊f * 2⌋).toNat)).length = 1 := by
        rcases hrepr with hr | hr <;> rw [hr] <;> decide
      have hacc : (acc ++ Nat.repr ((⌊f * 2⌋).toNat)).length = acc.length + 1 := by
        rw [string_length_append, hlen1]
      obtain ⟨ihlen, ihmem⟩ := ih (f * 2 - (((⌊f * 2⌋).toNat : ℕ) : ℚ))
        (acc ++ Nat.repr ((⌊f * 2⌋).toNat)) hf0 hf1
      constructor
      · refine le_trans ihlen ?_
        rw [hacc]
        have : acc.length + 1 ≤ 10 := by omega
        omega
      · intro c hcmem
        rcases ihmem c hcmem with hin | hin
        · rw [String.data_append] at hin
          rcases List.mem_append.mp hin with h | h
          · exact Or.inl h
          · rcases hrepr with hr | hr <;> rw [hr] at h
            · exact Or.inr (Or.inl (by simpa using h))
            · exact Or.inr (Or.inr (by simpa using h))
        · exact Or.inr hin
    · rw [if_neg hc]
      exact ⟨le_max_left _ _, fun c hcm => Or.inl hcm⟩

theorem hexChars_length : hexChars.length = 16 := by decide

theorem fracLoopHex_of_nonpos (fuel : ℕ) (f : ℚ) (acc : String) (h : ¬ 0 < f) :
    fracLoopHex fuel f acc = some acc := by
  cases fuel with
  | zero => rfl
  | succ fuel =>
    simp only [fracLoopHex]
    rw [if_neg (fun hc => h hc.1)]

theorem fracLoopHex_invariant (fuel : ℕ) :
    ∀ (f : ℚ) (acc : String), 0 ≤ f → f < 1 →
      ∃ s, fracLoopHex fuel f acc = some s
        ∧ s.length ≤ max acc.length 10
        ∧ ∀ c ∈ s.data, c ∈ acc.data ∨ c ∈ hexChars := by
  induction fuel with
  | zero =>
    intro f acc _ _
    exact ⟨acc, rfl, le_max_left _ _, fun c hc => Or.inl hc⟩
  | succ fuel ih =>
    intro f acc h0 h1
    simp only [fracLoopHex]
    by_cases hc : 0 < f ∧ acc.length < 10
    · rw [if_pos hc]
      obtain ⟨hdig, hcast, hf0, hf1⟩ := frac_step16 h0 h1
      have hlt : (⌊f * 16⌋).toNat < hexChars.length := by
        rw [hexChars_length]
        omega
      cases hg : hexChars.get? ((⌊f * 16⌋).toNat) with
      | none =>
        have := List.get?_eq_none.mp hg
        omega
      | some c =>
        have hcmem : c ∈ hexChars := List.get?_mem hg
        obtain ⟨s, hs, hslen, hsmem⟩ := ih (f * 16 - (((⌊f * 16⌋).toNat : ℕ) : ℚ))
          (acc.push c) hf0 hf1
        refine ⟨s, hs, ?_, ?_⟩
        · refine le_trans hslen ?_
          rw [String.length_push]
          have : acc.length + 1 ≤ 10 := by omega
          omega
        · intro d hd
          rcases hsmem d hd with hin | hin
          · rw [String.data_push] at hin
            rcases List.mem_append.mp hin with h | h
            · exact Or.inl h
            · have : d = c := by simpa using h
              rw [this]
              exact Or.inr hcmem
          · exact Or.inr hin
    · rw [if_neg hc]
      exact ⟨acc, rfl, le_max_left _ _, fun c hcm => Or.inl hcm⟩

theorem intLoopHex_invariant (fuel : ℕ) :
    ∀ (n : ℕ) (acc : String),
      ∃ s, intLoopHex fuel n acc = some s
        ∧ ∀ c ∈ s.data, c ∈ acc.data ∨ c ∈ hexChars := by
  induction fuel with
  | zero =>
    intro n acc
    exact ⟨acc, rfl, fun c hc => Or.inl hc⟩
  | succ fuel ih =>
    intro n acc
    simp only [intLoopHex]
    by_cases hn : 0 < n
    · rw [if_pos hn]
      have hlt : n % 16 < hexChars.length := by
        rw [hexChars_length]
        exact Nat.mod_lt _ (by omega)
      cases hg : hexChars.get? (n % 16) with
      | none =>
        have := List.get?_eq_none.mp hg
        omega
      | some c =>
        have hcmem : c ∈ hexChars := List.get?_mem hg
        obtain ⟨s, hs, hsmem⟩ := ih (n / 16) (String.singleton c ++ acc)
        refine ⟨s, hs, ?_⟩
        intro d hd
        rcases hsmem d hd with hin | hin
        · rw [String.data_append] at hin
          rcases List.mem_append.mp hin with h | h
          · have : d = c := by
              simpa [String.singleton] using h
            rw [this]
            exact Or.inr hcmem
          · exact Or.inl h
        · exact Or.inr hin
    · rw [if_neg hn]
      exact ⟨acc, rfl, fun c hc => Or.inl hc⟩

theorem fracLoopBin_fuel_stable :
    ∀ (fuel₁ fuel₂ : ℕ) (f : ℚ) (acc : String),
      10 ≤ acc.length + fuel₁ → 10 ≤ acc.length + fuel₂ →
      fracLoopBin fuel₁ f acc = fracLoopBin fuel₂ f acc := by
  intro fuel₁
  induction fuel₁ with
  | zero =>
    intro fuel₂ f acc h1 h2
    have hlen : ¬ acc.length < 10 := by omega
    cases fuel₂ with
    | zero => rfl
    | succ fuel₂ =>
      show fracLoopBin 0 f acc = fracLoopBin (fuel₂ + 1) f acc
      simp only [fracLoopBin]
      rw [if_neg (fun hc => hlen hc.2)]
  | succ fuel₁ ih =>
    intro fuel₂ f acc h1 h2
    cases fuel₂ with
    | zero =>
      have hlen : ¬ acc.length < 10 := by omega
      simp only [fracLoopBin]
      rw [if_neg (fun hc => hlen hc.2)]
    | succ fuel₂ =>
      simp only [fracLoopBin]
      by_cases hc : 0 < f ∧ acc.length < 10
      · rw [if_pos hc, if_pos hc]
        have hr := repr_length_pos ((⌊f * 2⌋).toNat)
        apply ih
        · rw [string_length_append]
          omega
        · rw [string_length_append]
          omega
      · rw [if_neg hc, if_neg hc]

theorem fracLoopHex_fuel_stable :
    ∀ (fuel₁ fuel₂ : ℕ) (f : ℚ) (acc : String),
      10 ≤ acc.length + fuel₁ → 10 ≤ acc.length + fuel₂ →
      fracLoopHex fuel₁ f acc = fracLoopHex fuel₂ f acc := by
  intro fuel₁
  induction fuel₁ with
  | zero =>
    intro fuel₂ f acc h1 h2
    have hlen : ¬ acc.length < 10 := by omega
    cases fuel₂ with
    | zero => rfl
    | succ fuel₂ =>
      show fracLoopHex 0 f acc = fracLoopHex (fuel₂ + 1) f acc
      simp only [fracLoopHex]
      rw [if_neg (fun hc => hlen hc.2)]
  | succ fuel₁ ih =>
    intro fuel₂ f acc h1 h2
    cases fuel₂ with
    | zero =>
      have hlen : ¬ acc.length < 10 := by omega
      simp only [fracLoopHex]
      rw [if_neg (fun hc => hlen hc.2)]
    | succ fuel₂ =>
      simp only [fracLoopHex]
      by_cases hc : 0 < f ∧ acc.length < 10
      · rw [if_pos hc, if_pos hc]
        cases hg : hexChars.get? ((⌊f * 16⌋).toNat) with
        | none => rfl
        | some c =>
          apply ih
          · rw [String.length_push]
            omega
          · rw [String.length_push]
            omega
      · rw [if_neg hc, if_neg hc]

/-- C10: on every entry of the fractional loops with a remainder in
[0,1) (which decimal_to_binary and decimal_to_hexa establish by
construction), every emitted binary digit is 0 or 1, the hexadecimal
digit-table indexing never goes out of bounds (the loop returns some and
all emitted characters come from the table), at most 10 digits are
produced, and any fuel beyond 10 gives the same result, so each loop
terminates within at most 10 iterations. -/
theorem c10_fraction_loop_safety :
    ∀ f : ℚ, 0 ≤ f → f < 1 →
      (∀ c ∈ (fracLoopBin 10 f "").data, c = '0' ∨ c = '1')
      ∧ (fracLoopBin 10 f "").length ≤ 10
      ∧ (∀ fuel, 10 ≤ fuel → fracLoopBin fuel f "" = fracLoopBin 10 f "")
      ∧ (∃ s, fracLoopHex 10 f "" = some s ∧ s.length ≤ 10
          ∧ ∀ c ∈ s.data, c ∈ hexChars)
      ∧ (∀ fuel, 10 ≤ fuel → fracLoopHex fuel f "" = fracLoopHex 10 f "") := by
  intro f h0 h1
  obtain ⟨hlen, hmem⟩ := fracLoopBin_invariant 10 f "" h0 h1
  obtain ⟨s, hs, hslen, hsmem⟩ := fracLoopHex_invariant 10 f "" h0 h1
  refine ⟨?_, ?_, ?_, ⟨s, hs, ?_, ?_⟩, ?_⟩
  · intro c hc
    rcases hmem c hc with hin | hin
    · rw [string_data_empty] at hin
      simp at hin
    · exact hin
  · simpa using hlen
  · intro fuel hf
    exact fracLoopBin_fuel_stable fuel 10 f "" (by simpa using hf) (by simp)
  · simpa using hslen
  · intro c hc
    rcases hsmem c hc with hin | hin
    · rw [string_data_empty] at hin
      simp at hin
    · exact hin
  · intro fuel hf
    exact fracLoopHex_fuel_stable fuel 10 f "" (by simpa using hf) (by simp)

theorem c10_fraction_loop_safety_witness :
    (0 : ℚ) ≤ 1 / 2 ∧ (1 / 2 : ℚ) < 1
    ∧ ((∀ c ∈ (fracLoopBin 10 (1 / 2 : ℚ) "").data, c = '0' ∨ c = '1')
      ∧ (fracLoopBin 10 (1 / 2 : ℚ) "").length ≤ 10
      ∧ (∀ fuel, 10 ≤ fuel →
          fracLoopBin fuel (1 / 2 : ℚ) "" = fracLoopBin 10 (1 / 2 : ℚ) "")
      ∧ (∃ s, fracLoopHex 10 (1 / 2 : ℚ) "" = some s ∧ s.length ≤ 10
          ∧ ∀ c ∈ s.data, c ∈ hexChars)
      ∧ (∀ fuel, 10 ≤ fuel →
          fracLoopHex fuel (1 / 2 : ℚ) "" = fracLoopHex 10 (1 / 2 : ℚ) "")) :=
  ⟨by norm_num, by norm_num,
    c10_fraction_loop_safety (1 / 2) (by norm_num) (by norm_num)⟩

theorem dot_not_mem_binIntPart (n : ℕ) :
    '.' ∉ (if intLoopBin n n "" = "" then "0" else intLoopBin n n "").data := by
  rw [intLoopBin_eq n n "" le_rfl, string_append_empty]
  by_cases h : binStr n = ""
  · rw [if_pos h]
    decide
  · rw [if_neg h]
    intro hc
    rcases binStr_digits n '.' hc with h0 | h0 <;> exact absurd h0 (by decide)

theorem decimal_to_binary_structure (q : ℚ) (hq : q ≠ 0) :
    decimal_to_binary q =
      if q < 0 then
        "-" ++ (if binFracStr q = ""
          then (if intLoopBin ((⌊|q|⌋).toNat) ((⌊|q|⌋).toNat) "" = "" then "0"
            else intLoopBin ((⌊|q|⌋).toNat) ((⌊|q|⌋).toNat) "")
          else (if intLoopBin ((⌊|q|⌋).toNat) ((⌊|q|⌋).toNat) "" = "" then "0"
            else intLoopBin ((⌊|q|⌋).toNat) ((⌊|q|⌋).toNat) "") ++ "." ++ binFracStr q)
      else
        (if binFracStr q = ""
          then (if intLoopBin ((⌊|q|⌋).toNat) ((⌊|q|⌋).toNat) "" = "" then "0"
            else intLoopBin ((⌊|q|⌋).toNat) ((⌊|q|⌋).toNat) "")
          else (if intLoopBin ((⌊|q|⌋).toNat) ((⌊|q|⌋).toNat) "" = "" then "0"
            else intLoopBin ((⌊|q|⌋).toNat) ((⌊|q|⌋).toNat) "") ++ "." ++ binFracStr q) := by
  simp only [decimal_to_binary, binFracStr, fracOf]
  rw [if_neg hq]

theorem dot_iff_binary (q : ℚ) :
    '.' ∈ (decimal_to_binary q).data ↔ binFracStr q ≠ "" := by
  by_cases hq : q = 0
  · have h1 : decimal_to_binary q = "0" := by
      rw [hq]
      simp [decimal_to_binary]
    have h2 : binFracStr q = "" := by
      rw [hq, binFracStr, fracOf_zero, fracLoopBin_of_nonpos 10 0 "" (by norm_num)]
    rw [h1, h2]
    refine iff_of_false (by decide) (fun hne => hne rfl)
  · rw [decimal_to_binary_structure q hq]
    have hdot : '.' ∉ (if intLoopBin ((⌊|q|⌋).toNat) ((⌊|q|⌋).toNat) "" = "" then "0"
        else intLoopBin ((⌊|q|⌋).toNat) ((⌊|q|⌋).toNat) "").data :=
      dot_not_mem_binIntPart _
    by_cases hbf : binFracStr q = ""
    · rw [if_pos hbf]
      refine iff_of_false ?_ (fun hne => hne hbf)
      by_cases hneg : q < 0
      · rw [if_pos hneg]
        intro hc
        rw [String.data_append] at hc
        rcases List.mem_append.mp hc with h | h
        · exact absurd h (by decide)
        · exact hdot h
      · rw [if_neg hneg]
        exact hdot
    · rw [if_neg hbf]
      refine iff_of_true ?_ hbf
      have hmem : '.' ∈ ((if intLoopBin ((⌊|q|⌋).toNat) ((⌊|q|⌋).toNat) "" = "" then "0"
          else intLoopBin ((⌊|q|⌋).toNat) ((⌊|q|⌋).toNat) "") ++ "." ++ binFracStr q).data := by
        rw [String.data_append, String.data_append]
        refine List.mem_append.mpr (Or.inl (List.mem_append.mpr (Or.inr ?_)))
        decide
      by_cases hneg : q < 0
      · rw [if_pos hneg, String.data_append]
        exact List.mem_append.mpr (Or.inr hmem)
      · rw [if_neg hneg]
        exact hmem

theorem decimal_to_hexa_structure (q : ℚ) (hq : q ≠ 0) {ii fs : String}
    (hii : intLoopHex ((⌊|q|⌋).toNat) ((⌊|q|⌋).toNat) "" = some ii)
    (hfs : fracLoopHex 10 (fracOf q) "" = some fs) :
    decimal_to_hexa q = some (if q < 0 then
        "-" ++ (if fs = "" then (if ii = "" then "0" else ii)
          else (if ii = "" then "0" else ii) ++ "." ++ fs)
      else (if fs = "" then (if ii = "" then "0" else ii)
        else (if ii = "" then "0" else ii) ++ "." ++ fs)) := by
  simp only [decimal_to_hexa]
  rw [if_neg hq]
  rw [show |q| - ((((⌊|q|⌋).toNat : ℕ) : ℤ) : ℚ) = fracOf q from rfl]
  rw [hii, hfs]

theorem dot_not_mem_hexIntPart {ii : String}
    (hiic : ∀ c ∈ ii.data, c ∈ ("" : String).data ∨ c ∈ hexChars) :
    '.' ∉ (if ii = "" then "0" else ii).data := by
  by_cases h : ii = ""
  · rw [if_pos h]
    decide
  · rw [if_neg h]
    intro hc
    rcases hiic '.' hc with h0 | h0
    · rw [string_data_empty] at h0
      simp at h0
    · exact absurd h0 (by decide)

theorem decimal_to_hexa_some (q : ℚ) :
    ∃ fs s, fracLoopHex 10 (fracOf q) "" = some fs ∧ decimal_to_hexa q = some s
      ∧ fs.length ≤ 10 ∧ ('.' ∈ s.data ↔ fs ≠ "") := by
  by_cases hq : q = 0
  · have hfs : fracLoopHex 10 (fracOf q) "" = some "" := by
      rw [hq, fracOf_zero]
      exact fracLoopHex_of_nonpos 10 0 "" (by norm_num)
    refine ⟨"", "0", hfs, by rw [hq]; simp [decimal_to_hexa], by decide, ?_⟩
    exact iff_of_false (by decide) (fun hne => hne rfl)
  · obtain ⟨fs, hfs, hfsl, hfsc⟩ :=
      fracLoopHex_invariant 10 (fracOf q) "" (fracOf_nonneg q) (fracOf_lt_one q)
    obtain ⟨ii, hii, hiic⟩ := intLoopHex_invariant ((⌊|q|⌋).toNat) ((⌊|q|⌋).toNat) ""
    have hdh := decimal_to_hexa_structure q hq hii hfs
    have hdot : '.' ∉ (if ii = "" then "0" else ii).data := dot_not_mem_hexIntPart hiic
    refine ⟨fs, _, hfs, hdh, by simpa using hfsl, ?_⟩
    by_cases hbf : fs = ""
    · rw [if_pos hbf]
      refine iff_of_false ?_ (fun hne => hne hbf)
      by_cases hneg : q < 0
      · rw [if_pos hneg]
        intro hc
        rw [String.data_append] at hc
        rcases List.mem_append.mp hc with h | h
        · exact absurd h (by decide)
        · exact hdot h
      · rw [if_neg hneg]
        exact hdot
    · rw [if_neg hbf]
      refine iff_of_true ?_ hbf
      have hmem : '.' ∈ ((if ii = "" then "0" else ii) ++ "." ++ fs).data := by
        rw [String.data_append, String.data_append]
        refine List.mem_append.mpr (Or.inl (List.mem_append.mpr (Or.inr ?_)))
        decide
      by_cases hneg : q < 0
      · rw [if_pos hneg, String.data_append]
        exact List.mem_append.mpr (Or.inr hmem)
      · rw [if_neg hneg]
        exact hmem

/-- C6: for every input, the binary and hexadecimal fractional digit
strings have at most 10 digits, the output contains the dot separator
exactly when at least one fractional digit was produced, and both
converters map 0 to the string 0 (the hexadecimal converter also never
hits an out-of-range digit index, so it always returns a string). -/
theorem c6_fraction_cap_and_dot :
    ∀ q : ℚ,
      (binFracStr q).length ≤ 10
      ∧ ('.' ∈ (decimal_to_binary q).data ↔ binFracStr q ≠ "")
      ∧ (∃ fs s, fracLoopHex 10 (fracOf q) "" = some fs ∧ decimal_to_hexa q = some s
          ∧ fs.length ≤ 10 ∧ ('.' ∈ s.data ↔ fs ≠ ""))
      ∧ decimal_to_binary 0 = "0" ∧ decimal_to_hexa 0 = some "0" := by
  intro q
  refine ⟨?_, dot_iff_binary q, decimal_to_hexa_some q,
    by simp [decimal_to_binary], by simp [decimal_to_hexa]⟩
  have h := (fracLoopBin_invariant 10 (fracOf q) ""
    (fracOf_nonneg q) (fracOf_lt_one q)).1
  simpa [binFracStr] using h

/-! ### Lemmas for word_count.py tokenization -/

theorem char_toNat_ofNat : ∀ m : ℕ, m < 123 → 97 ≤ m → (Char.ofNat m).toNat = m := by
  decide

theorem isPySpace_eq_false {c : Char} (h : 65 ≤ c.toNat) : isPySpace c = false := by
  unfold isPySpace
  have h1 : c ≠ ' ' := fun he => by subst he; exact absurd h (by decide)
  have h2 : c ≠ '\t' := fun he => by subst he; exact absurd h (by decide)
  have h3 : c ≠ '\n' := fun he => by subst he; exact absurd h (by decide)
  have h4 : c ≠ '\r' := fun he => by subst he; exact absurd h (by decide)
  have h5 : c ≠ Char.ofNat 11 := fun he => by
    rw [he] at h
    exact absurd h (by decide)
  have h6 : c ≠ Char.ofNat 12 := fun he => by
    rw [he] at h
    exact absurd h (by decide)
  simp [h1, h2, h3, h4, h5, h6]

theorem isPySpace_toLower (c : Char) : isPySpace (Char.toLower c) = isPySpace c := by
  by_cases h : c.toNat ≥ 65 ∧ c.toNat ≤ 90
  · have hl : Char.toLower c = Char.ofNat (c.toNat + 32) := by
      simp only [Char.toLower]
      rw [if_pos h]
    have ht : (Char.ofNat (c.toNat + 32)).toNat = c.toNat + 32 :=
      char_toNat_ofNat _ (by omega) (by omega)
    rw [hl, isPySpace_eq_false (by rw [ht]; omega), isPySpace_eq_false (by omega)]
  · have hl : Char.toLower c = c := by
      simp only [Char.toLower]
      rw [if_neg h]
    rw [hl]

theorem toLower_toLower (c : Char) : Char.toLower (Char.toLower c) = Char.toLower c := by
  by_cases h : c.toNat ≥ 65 ∧ c.toNat ≤ 90
  · have hl : Char.toLower c = Char.ofNat (c.toNat + 32) := by
      simp only [Char.toLower]
      rw [if_pos h]
    have ht : (Char.ofNat (c.toNat + 32)).toNat = c.toNat + 32 :=
      char_toNat_ofNat _ (by omega) (by omega)
    have hno : ¬ ((Char.ofNat (c.toNat + 32)).toNat ≥ 65
        ∧ (Char.ofNat (c.toNat + 32)).toNat ≤ 90) := by
      rw [ht]
      omega
    rw [hl]
    simp only [Char.toLower]
    rw [if_neg hno]
  · have hl : Char.toLower c = c := by
      simp only [Char.toLower]
      rw [if_neg h]
    rw [hl, hl]

theorem pyLower_pyStrip (s : String) : pyLower (pyStrip s) = pyStrip (pyLower s) := by
  have hA : (isPySpace ∘ Char.toLower) = isPySpace := funext isPySpace_toLower
  apply String.ext
  show (((s.data.dropWhile isPySpace).reverse.dropWhile isPySpace).reverse).map Char.toLower
    = (((s.data.map Char.toLower).dropWhile isPySpace).reverse.dropWhile
        isPySpace).reverse
  rw [List.dropWhile_map, hA, ← List.map_reverse, List.dropWhile_map, hA, ← List.map_reverse]

theorem pySplitGo_chars :
    ∀ (l cur : List Char) (w : String), w ∈ pySplitGo l cur →
      ∀ c ∈ w.data, c ∈ l ∨ c ∈ cur := by
  intro l
  induction l with
  | nil =>
    intro cur w hw c hc
    simp only [pySplitGo] at hw
    split at hw
    · simp at hw
    · have hwe : w = ⟨cur.reverse⟩ := by simpa using hw
      rw [hwe] at hc
      exact Or.inr (by simpa using hc)
  | cons a t ih =>
    intro cur w hw c hc
    simp only [pySplitGo] at hw
    split at hw
    · split at hw
      · rcases ih [] w hw c hc with h | h
        · exact Or.inl (List.mem_cons.mpr (Or.inr h))
        · simp at h
      · rcases List.mem_cons.mp hw with rfl | hw2
        · exact Or.inr (by simpa using hc)
        · rcases ih [] w hw2 c hc with h | h
          · exact Or.inl (List.mem_cons.mpr (Or.inr h))
          · simp at h
    · rcases ih (a :: cur) w hw c hc with h | h
      · exact Or.inl (List.mem_cons.mpr (Or.inr h))
      · rcases List.mem_cons.mp h with rfl | h2
        · exact Or.inl (List.mem_cons.mpr (Or.inl rfl))
        · exact Or.inr h2

theorem word_chars_lower {s w : String} (hw : w ∈ pySplit (pyLower s)) :
    ∀ c ∈ w.data, Char.toLower c = c := by
  intro c hc
  rcases pySplitGo_chars (pyLower s).data [] w hw c hc with h | h
  · have h2 : c ∈ s.data.map Char.toLower := h
    obtain ⟨d, _, rfl⟩ := List.mem_map.mp h2
    exact toLower_toLower d
  · simp at h

theorem pyLower_eq_self_of_chars {w : String}
    (h : ∀ c ∈ w.data, Char.toLower c = c) : pyLower w = w := by
  apply String.ext
  show w.data.map Char.toLower = w.data
  calc w.data.map Char.toLower = w.data.map id := List.map_congr_left (fun c hc => h c hc)
    _ = w.data := List.map_id _

theorem insertIncr_key_origin {α} [DecidableEq α] {m : List (α × ℕ)} {y : α} {p : α × ℕ}
    (hp : p ∈ insertIncr m y) : (∃ q ∈ m, p.1 = q.1) ∨ p.1 = y := by
  unfold insertIncr at hp
  split at hp
  · obtain ⟨q, hq, hfq⟩ := List.mem_map.mp hp
    left
    refine ⟨q, hq, ?_⟩
    by_cases hqy : q.1 = y
    · rw [if_pos hqy] at hfq
      rw [← hfq]
    · rw [if_neg hqy] at hfq
      rw [← hfq]
  · rcases List.mem_append.mp hp with h1 | h2
    · exact Or.inl ⟨p, h1, rfl⟩
    · right
      have hpe : p = (y, 1) := by simpa using h2
      rw [hpe]

theorem word_map_fold_keys (ws : List String) :
    ∀ (m : List (String × ℕ)) (P : String → Prop),
      (∀ p ∈ m, P p.1) → (∀ w ∈ ws, P w) →
      ∀ p ∈ ws.foldl (fun m word => if is_valid_word word then insertIncr m word else m) m,
        P p.1 := by
  induction ws with
  | nil =>
    intro m P hm _ p hp
    exact hm p hp
  | cons w t ih =>
    intro m P hm hws p hp
    rw [List.foldl_cons] at hp
    refine ih _ P ?_ (fun v hv => hws v (List.mem_cons.mpr (Or.inr hv))) p hp
    intro q hq
    by_cases hv : is_valid_word w
    · rw [if_pos hv] at hq
      rcases insertIncr_key_origin hq with ⟨r, hr, he⟩ | he
      · rw [he]
        exact hm r hr
      · rw [he]
        exact hws w (List.mem_cons.mpr (Or.inl rfl))
    · rw [if_neg hv] at hq
      exact hm q hq

/-- C9: word counting is case-insensitive: every key of word_map is its
own lowercase form, and the map depends only on the lowercased input
lines, so inputs differing only in letter case produce identical word
counts. -/
theorem c9_case_insensitive_counting :
    ∀ lines : List String,
      (∀ p ∈ word_map lines, pyLower p.1 = p.1)
      ∧ ∀ lines₂ : List String, lines.map pyLower = lines₂.map pyLower →
          word_map lines = word_map lines₂ := by
  intro lines
  constructor
  · intro p hp
    unfold word_map at hp
    refine pyLower_eq_self_of_chars ?_
    refine word_map_fold_keys (allWords lines) []
      (fun w => ∀ c ∈ w.data, Char.toLower c = c) (by simp) ?_ p hp
    intro w hw
    unfold allWords at hw
    obtain ⟨ws, hws, hwin⟩ := List.mem_flatten.mp hw
    obtain ⟨line, _, rfl⟩ := List.mem_map.mp hws
    exact word_chars_lower hwin
  · intro lines₂ hll
    unfold word_map allWords
    have h1 : (fun line => pySplit (pyLower (pyStrip line)))
        = (fun line => pySplit (pyStrip (pyLower line))) :=
      funext (fun l => by rw [pyLower_pyStrip])
    have hwords : lines.map (fun line => pySplit (pyLower (pyStrip line)))
        = lines₂.map (fun line => pySplit (pyLower (pyStrip line))) := by
      rw [h1]
      calc lines.map (fun line => pySplit (pyStrip (pyLower line)))
          = (lines.map pyLower).map (fun line => pySplit (pyStrip line)) := by
            rw [List.map_map]
            rfl
        _ = (lines₂.map pyLower).map (fun line => pySplit (pyStrip line)) := by
            rw [hll]
        _ = lines₂.map (fun line => pySplit (pyStrip (pyLower line))) := by
            rw [List.map_map]
            rfl
    rw [hwords]

theorem c9_case_insensitive_counting_witness :
    ((("ab" : String), 1) ∈ word_map ["Ab"])
    ∧ (["Ab"] : List String).map pyLower = (["aB"] : List String).map pyLower
    ∧ pyLower "ab" = "ab"
    ∧ word_map ["Ab"] = word_map ["aB"] :=
  ⟨by decide, by decide,
    (c9_case_insensitive_counting ["Ab"]).1 ("ab", 1) (by decide),
    (c9_case_insensitive_counting ["Ab"]).2 ["aB"] (by decide)⟩
